import Mathlib

/-!
Shallow embedding of the BLSQ/openhexa-pipelines-bfa-nmdr pipelines.

Each namespace embeds one pipeline module:
* `Micro`       : src/dhis2_extract_microstratification/pipeline.py
* `EndosRedop`  : src/endos_redop_completeness/pipeline.py
* `Climate`     : src/push_climate_data_auto/pipeline.py
* `PushTloh`    : src/push_tloh/pipeline.py and src/push_tloh_completeness/pipeline.py

Dataframes are modelled as lists of records, datetimes at day resolution as
integers (or as explicit year/month/day triples where calendar arithmetic
matters), and HTTP calls as oracle functions passed in as parameters.
-/

namespace Micro

/-- One row of the data-value dataframe handled by
`dhis2_extract_microstratification`.  `last_updated` is a timestamp modelled
as a natural number. -/
structure DataValue where
  data_element_id : String
  period : String
  organisation_unit_id : String
  category_option_combo_id : String
  attribute_option_combo_id : String
  last_updated : Nat
  value : Int
deriving DecidableEq, Repr

/-- The natural key used by the `unique` subset in `merge_data_values`. -/
def DataValue.key (r : DataValue) : String × String × String × String × String :=
  (r.data_element_id, r.period, r.organisation_unit_id,
   r.category_option_combo_id, r.attribute_option_combo_id)

/-- Ordering used by `.sort(by="last_updated", descending=True)`:
`a` comes before `b` when `a.last_updated ≥ b.last_updated`.  The sort is
modelled as a stable insertion sort. -/
def luDescRel (a b : DataValue) : Prop := b.last_updated ≤ a.last_updated

instance : DecidableRel luDescRel := fun a b => Nat.decLe _ _

instance : IsTotal DataValue luDescRel :=
  ⟨fun a b => (Nat.le_total b.last_updated a.last_updated)⟩

instance : IsTrans DataValue luDescRel :=
  ⟨fun _ _ _ hab hbc => Nat.le_trans hbc hab⟩

/-- Embeds `pl.concat([old, new]).sort(by="last_updated", descending=True)` modelled
as a stable descending sort. -/
def sortDesc (l : List DataValue) : List DataValue := List.insertionSort luDescRel l

/-- Embeds `.unique(subset=key-columns, keep="first", maintain_order=True)`:
keep the first occurrence of each natural key, in order of first occurrences. -/
def dedupFirst : List DataValue → List DataValue
  | [] => []
  | x :: xs => x :: dedupFirst (xs.filter (fun y => decide (y.key ≠ x.key)))
termination_by l => l.length
decreasing_by
  simp only [List.length_cons]
  exact Nat.lt_succ_of_le (List.length_filter_le _ _)

/-- Embeds `merge_data_values` (pipeline.py lines 258-280): concatenate `old` and
`new`, sort descending by `last_updated`, keep the first row per natural key. -/
def merge_data_values (old new : List DataValue) : List DataValue :=
  dedupFirst (sortDesc (old ++ new))

/-- Embeds `get_last_updated` (pipeline.py lines 247-255): when the persisted parquet
file exists (`persisted = some rows`) return `df["last_updated"].max()`
(which is `none` for an empty frame); otherwise the Python function falls
through and returns `None`.  `maxStep` is the fold step computing the running
maximum of the `last_updated` column. -/
def maxStep (acc : Option Nat) (r : DataValue) : Option Nat :=
  match acc with
  | none => some r.last_updated
  | some m => some (max m r.last_updated)

def get_last_updated (persisted : Option (List DataValue)) : Option Nat :=
  match persisted with
  | none => none
  | some rows => rows.foldl maxStep none

/-- Embeds `(datetime.now() - last_updated).days if last_updated else 9999`
(pipeline.py line 199), with datetimes at day resolution. -/
def days_since_last_update (now : Int) (last_updated : Option Int) : Int :=
  match last_updated with
  | some lu => now - lu
  | none => 9999

/-- The chunking decision of `extract` (pipeline.py line 200):
`last_updated is None or days_since_last_update >= 180`. -/
def uses_monthly_chunks (now : Int) (last_updated : Option Int) : Bool :=
  last_updated.isNone || decide (days_since_last_update now last_updated ≥ 180)

/-- The chunking condition as the specification words it: chunk exactly when
no prior data exists or the high-water mark is *more than* 180 days old. -/
def chunkCondClaimed (now : Int) (last_updated : Option Int) : Prop :=
  last_updated = none ∨ ∃ lu, last_updated = some lu ∧ now - lu > 180

/-- A calendar date, as used by `monthly_chunks` (year/month/day of a Python
`datetime`). -/
structure Date where
  year : Nat
  month : Nat
  day : Nat
deriving DecidableEq, Repr

/-- Gregorian leap year test. -/
def isLeap (y : Nat) : Bool := y % 4 == 0 && (y % 100 != 0 || y % 400 == 0)

/-- Number of days in a month (month numbered 1-12). -/
def daysInMonth (y m : Nat) : Nat :=
  if m = 2 then (if isLeap y then 29 else 28)
  else if m = 4 ∨ m = 6 ∨ m = 9 ∨ m = 11 then 30
  else 31

/-- A valid calendar date: month in 1-12, day in 1-daysInMonth. -/
def Date.Valid (d : Date) : Prop :=
  1 ≤ d.month ∧ d.month ≤ 12 ∧ 1 ≤ d.day ∧ d.day ≤ daysInMonth d.year d.month

instance (d : Date) : Decidable d.Valid := by unfold Date.Valid; infer_instance

/-- Embeds `d + relativedelta(months=1)`: advance one calendar month, clamping the
day to the length of the target month (dateutil semantics). -/
def addMonth (d : Date) : Date :=
  if d.month = 12 then ⟨d.year + 1, 1, min d.day (daysInMonth (d.year + 1) 1)⟩
  else ⟨d.year, d.month + 1, min d.day (daysInMonth d.year (d.month + 1))⟩

/-- Month rank of a date, used to bound the number of loop iterations of
`monthly_chunks`. -/
def Date.rank (d : Date) : Nat := 12 * d.year + d.month

/-- Python `datetime` order (strict), restricted to year/month/day. -/
def dlt (a b : Date) : Prop :=
  a.year < b.year ∨ (a.year = b.year ∧
    (a.month < b.month ∨ (a.month = b.month ∧ a.day < b.day)))

/-- Python `datetime` order (non-strict), restricted to year/month/day. -/
def dle (a b : Date) : Prop :=
  a.year < b.year ∨ (a.year = b.year ∧
    (a.month < b.month ∨ (a.month = b.month ∧ a.day ≤ b.day)))

instance (a b : Date) : Decidable (dlt a b) := by unfold dlt; infer_instance

instance (a b : Date) : Decidable (dle a b) := by unfold dle; infer_instance

/-- The loop of `monthly_chunks` (pipeline.py lines 318-329): yield the
current `(chunk_start, chunk_end)`, then, while `chunk_end < end`, advance
both bounds by one month and yield again.  `fuel` bounds the number of
iterations; `monthly_chunks` below passes enough fuel for the bound never to
bite (see `monthlyChunksAux_stop`). -/
def monthlyChunksAux (endD : Date) : Nat → Date → Date → List (Date × Date)
  | 0, cs, ce => [(cs, ce)]
  | fuel + 1, cs, ce =>
    (cs, ce) ::
      (if dlt ce endD then monthlyChunksAux endD fuel (addMonth cs) (addMonth ce) else [])

/-- Embeds `monthly_chunks(start, end)`: first chunk is
`(start, start + relativedelta(months=1))`; subsequent chunks advance both
bounds by one month while `chunk_end < end`. -/
def monthly_chunks (start endD : Date) : List (Date × Date) :=
  monthlyChunksAux endD (endD.rank + 1 - start.rank) start (addMonth start)

/-- Specified behaviour of `monthly_chunks` over `[start, endD]`, bundled:
first chunk, one-month advancement of both bounds, stopping with the first
chunk whose end reaches or exceeds `endD`, and coverage of the interval. -/
def MonthlyChunksProp (start endD : Date) : Prop :=
  (monthly_chunks start endD).head? = some (start, addMonth start)
  ∧ List.Chain' (fun p q => q.1 = addMonth p.1 ∧ q.2 = addMonth p.2)
      (monthly_chunks start endD)
  ∧ (∀ p ∈ (monthly_chunks start endD).dropLast, dlt p.2 endD)
  ∧ (∃ c, (monthly_chunks start endD).getLast? = some c ∧ dle endD c.2)
  ∧ (∀ d, dle start d → dle d endD →
      ∃ c ∈ monthly_chunks start endD, dle c.1 d ∧ dle d c.2)

/-- Specified behaviour of `merge_data_values old new`, bundled: pairwise
distinct natural keys, key set equal to that of `old ++ new`, and every kept
record is a candidate with maximal `last_updated`, namely the first record of
its key in the stable descending sort of `old ++ new`. -/
def MergeProp (old new : List DataValue) : Prop :=
  (merge_data_values old new).Pairwise (fun a b => a.key ≠ b.key)
  ∧ (∀ k, (∃ r ∈ merge_data_values old new, r.key = k) ↔ ∃ r ∈ old ++ new, r.key = k)
  ∧ ∀ r ∈ merge_data_values old new,
      r ∈ old ++ new
      ∧ (∀ s ∈ old ++ new, s.key = r.key → s.last_updated ≤ r.last_updated)
      ∧ ((sortDesc (old ++ new)).filter (fun s => decide (s.key = r.key))).head? = some r

/-- Ascending multi-column comparator for
`.sort(by=["period", "data_element_id", "organisation_unit_id"])`. -/
def extractLe (a b : DataValue) : Bool :=
  if a.period ≠ b.period then decide (a.period < b.period)
  else if a.data_element_id ≠ b.data_element_id then
    decide (a.data_element_id < b.data_element_id)
  else decide (a.organisation_unit_id ≤ b.organisation_unit_id)

/-- Relation form of `extractLe`, for `List.insertionSort`. -/
def extractOrder (a b : DataValue) : Prop := extractLe a b = true

instance : DecidableRel extractOrder := fun a b => instDecidableEqBool _ _

/-- The tail of the `extract` task (pipeline.py lines 236-244): merge the old
persisted rows with the newly fetched ones into `df` — but then return
`new.sort(by=["period", "data_element_id", "organisation_unit_id"])`, leaving
`df` unused, exactly as the Python function does.  `old = some rows` models
`dst_file.exists()` with the persisted frame holding `rows`. -/
def extract (old : Option (List DataValue)) (new : List DataValue) : List DataValue :=
  let df : List DataValue :=
    match old with
    | some rows => merge_data_values rows new
    | none => new
  let _ := df
  List.insertionSort extractOrder new

/-- Organisation-unit metadata row after the rename in `enrich`
(`name` → `organisation_unit_name`). -/
structure OrgUnitMeta where
  id : String
  organisation_unit_name : String
deriving DecidableEq, Repr

/-- Data-element metadata row after the rename in `enrich`
(`name` → `data_element_name`). -/
structure DataElementMeta where
  id : String
  data_element_name : String
deriving DecidableEq, Repr

/-- A data-value row with the metadata columns attached by `enrich`;
`none` models a null cell produced by an unmatched left join. -/
structure EnrichedValue where
  base : DataValue
  organisation_unit_name : Option String
  data_element_name : Option String
deriving DecidableEq, Repr

/-- Polars `how="left"` join: every left row is kept; a row with no match on
the right gets a `none` right side, a row with several matches is repeated
once per match. -/
def leftJoin (left : List α) (right : List β) (same : α → β → Bool)
    (comb : α → Option β → γ) : List γ :=
  left.flatMap (fun l =>
    match right.filter (fun r => same l r) with
    | [] => [comb l none]
    | m :: ms => (m :: ms).map (fun r => comb l (some r)))

/-- Embeds `enrich` (pipeline.py lines 283-308): left-join the data against the
organisation-unit metadata on `organisation_unit_id = id`, then against the
data-element metadata on `data_element_id = id`. -/
def enrich (data : List DataValue) (org_units : List OrgUnitMeta)
    (data_elements : List DataElementMeta) : List EnrichedValue :=
  leftJoin
    (leftJoin data org_units
      (fun r m => r.organisation_unit_id == m.id)
      (fun r m => (r, m)))
    data_elements
    (fun p m => p.1.data_element_id == m.id)
    (fun p m =>
      ⟨p.1, p.2.map OrgUnitMeta.organisation_unit_name,
        m.map DataElementMeta.data_element_name⟩)

/-- Embeds `write` (pipeline.py lines 311-315) persists exactly the dataframe it is
given; the parquet file content is modelled as the list of rows. -/
def write (df : List EnrichedValue) : List EnrichedValue := df

/-- The record set persisted by a run in which a previous file exists:
`write(enrich(extract(...)))`, projected back to the base data-value rows. -/
def persistedAfterRun (old new : List DataValue) (org_units : List OrgUnitMeta)
    (data_elements : List DataElementMeta) : List DataValue :=
  (write (enrich (extract (some old) new) org_units data_elements)).map EnrichedValue.base

/-- Embeds `filter_data_elements` (pipeline.py lines 167-182): iterate over the
input ids; an id absent from the instance metadata is only logged, and every
id is appended to the result regardless. -/
def filter_data_elements (meta_ids : List String) (data_elements : List String) : List String :=
  data_elements.foldl (fun acc dx =>
    let _ := decide (dx ∉ meta_ids)
    acc ++ [dx]) []

end Micro

namespace EndosRedop

/-- One row of the REDOP data-value snapshot (`redop.parquet`); `value` is
`none` for a null cell, and the Python `int(row["value"])` cast is reflected
by the `Int` payload. -/
structure RedopRow where
  dataElement : String
  period : String
  orgUnit : String
  value : Option Int
deriving DecidableEq, Repr

/-- One row of the transformed ENDOS completeness dataframe after the pivot:
one optional column per completeness metric. -/
structure EndosRow where
  period : String
  ou_id : String
  actual_reports : Option Int
  actual_reports_on_time : Option Int
  expected_reports : Option Int
deriving DecidableEq, Repr

/-- A data value of the POST payload built by `build_payload`. -/
structure PayloadValue where
  dataElement : String
  period : String
  orgUnit : String
  value : Int
deriving DecidableEq, Repr

/-- The `DATA_ELEMENTS` mapping of `build_payload`, in dict iteration order. -/
def DATA_ELEMENTS : List (String × String) :=
  [("actual_reports", "Ae9s1MsUEYq"),
   ("actual_reports_on_time", "dGkVTxwolrD"),
   ("expected_reports", "R5UJwkTo2HV")]

/-- Embeds `row.get(dx_name)`: select the metric column named `dx_name`. -/
def metricValue (row : EndosRow) (dx_name : String) : Option Int :=
  if dx_name = "actual_reports" then row.actual_reports
  else if dx_name = "actual_reports_on_time" then row.actual_reports_on_time
  else if dx_name = "expected_reports" then row.expected_reports
  else none

/-- First loop of `build_payload` (pipeline.py lines 276-287): the data
values already pushed to REDOP, i.e. the REDOP rows with a non-null value. -/
def in_redop (redop_data : List RedopRow) : List PayloadValue :=
  redop_data.filterMap (fun r =>
    r.value.map (fun v => ⟨r.dataElement, r.period, r.orgUnit, v⟩))

/-- Second loop of `build_payload` (pipeline.py lines 291-304): for every
ENDOS row and every metric, skip a null source value, and append the data
value unless the identical record is already in REDOP. -/
def build_payload (endos_data : List EndosRow) (redop_data : List RedopRow) :
    List PayloadValue :=
  let inR := in_redop redop_data
  endos_data.flatMap (fun row =>
    DATA_ELEMENTS.filterMap (fun p =>
      match metricValue row p.1 with
      | none => none
      | some v =>
        let data_value : PayloadValue := ⟨p.2, row.period, row.ou_id, v⟩
        if data_value ∈ inR then none else some data_value))

/-- Embeds `chunkify` (pipeline.py lines 307-309): consecutive slices of length `n`
(the source only calls it with `n = 1000`; Python would raise on `n = 0`,
modelled as an empty result). -/
def chunkify (src_list : List α) (n : Nat) : List (List α) :=
  match src_list, n with
  | _, 0 => []
  | [], _ => []
  | x :: xs, n + 1 => (x :: xs).take (n + 1) :: chunkify ((x :: xs).drop (n + 1)) (n + 1)
termination_by src_list.length
decreasing_by
  simp only [List.length_drop, List.length_cons]
  omega

/-- Embeds `post` (pipeline.py lines 312-316): one `dataValueSets` POST per
1000-element chunk of the payload, in order.  The Python function discards
every response and returns `None`; the embedding returns the list of request
bodies so the calls can be observed. -/
def post (payload : List PayloadValue) : List (List PayloadValue) :=
  chunkify payload 1000

end EndosRedop

namespace Climate

/-- An `importCount` object of a DHIS2 import summary. -/
structure ImportCount where
  imported : Nat
  updated : Nat
  ignored : Nat
  deleted : Nat
deriving DecidableEq, Repr

/-- A DHIS2 import summary, as far as `push_data_values` reads it. -/
structure ImportSummary where
  status : String
  description : String
  importCount : ImportCount
deriving DecidableEq, Repr

/-- Embeds `_merge_import_counts` (pipeline.py lines 307-313): field-wise sum of a
list of import counts, starting from zeros. -/
def merge_import_counts (import_counts : List ImportCount) : ImportCount :=
  import_counts.foldl (fun acc c =>
    ⟨acc.imported + c.imported, acc.updated + c.updated,
     acc.ignored + c.ignored, acc.deleted + c.deleted⟩) ⟨0, 0, 0, 0⟩

/-- One entry of the `data_values` dict of `push_data_values`: an org-unit
uid together with its list of data values (the value payload type is
abstract). -/
def Entry (α : Type) := String × List α

/-- The loop of `push_data_values` (pipeline.py lines 345-358): one POST per
org-unit entry, in order; `resp` is the destination oracle giving the import
summary answered for a request body.  Returns the entries actually posted
together with either the accumulated per-call import counts or the
description string of the first non-success summary (the Python code raises
`DHIS2ImportError(summary["description"])` there and posts nothing further). -/
def pushRun (resp : Entry α → ImportSummary) :
    List (Entry α) → List (Entry α) × Except String (List ImportCount)
  | [] => ([], .ok [])
  | e :: es =>
    let s := resp e
    if s.status = "SUCCESS" then
      match pushRun resp es with
      | (calls, .ok counts) => (e :: calls, .ok (s.importCount :: counts))
      | (calls, .error msg) => (e :: calls, .error msg)
    else ([e], .error s.description)

/-- Embeds `push_data_values` (pipeline.py lines 316-359): run the posting loop and
merge the collected import counts. -/
def push_data_values (resp : Entry α → ImportSummary) (data_values : List (Entry α)) :
    List (Entry α) × Except String ImportCount :=
  match pushRun resp data_values with
  | (calls, .ok counts) => (calls, .ok (merge_import_counts counts))
  | (calls, .error msg) => (calls, .error msg)

end Climate

namespace PushTloh

/-- One entry of the `find_data` result: a period string and a file path. -/
structure SrcFile where
  period : String
  fpath : String
deriving DecidableEq, Repr

/-- What the loop body of `push` logs for one source file: either the import
report of a successful push, or the warning pair (could-not-process message
plus formatted traceback) of a caught exception. -/
inductive LogEntry where
  | report : String → Climate.ImportCount → LogEntry
  | failure : String → String → LogEntry
deriving DecidableEq, Repr

/-- The body of the `try` block of `push` (pipeline.py lines 166-187 of
push_tloh, lines 156-176 of push_tloh_completeness): transform the file into
data values, then post them; either step may raise, modelled by `Except`. -/
def processFile (transform : SrcFile → Except String α)
    (postValues : α → Except String Climate.ImportCount) (src : SrcFile) :
    Except String Climate.ImportCount := do
  let values ← transform src
  postValues values

/-- The `push` loop of push_tloh and push_tloh_completeness (identical in
both): process the files in order; an exception raised for one file is caught
inside the loop, logged as a warning with its traceback, and the iteration
continues with the next file.  The task returns only the log, never an
exception.  (`fname` is `src["period"].split("/")[-1]` in the source; period
strings contain no slash, so it is the period itself.) -/
def push (transform : SrcFile → Except String α)
    (postValues : α → Except String Climate.ImportCount) :
    List SrcFile → List LogEntry
  | [] => []
  | src :: rest =>
    (match processFile transform postValues src with
     | .ok report => [LogEntry.report src.period report]
     | .error exc => [LogEntry.failure src.period exc]) ++
    push transform postValues rest

end PushTloh

/-!
## Theorems

Helper lemmas first, then one theorem per claim (with witnesses and
counterexamples where applicable).
-/

section Helpers

lemma filter_data_elements_foldl (meta : List String) (l acc : List String) :
    l.foldl (fun acc dx => let _ := decide (dx ∉ meta); acc ++ [dx]) acc = acc ++ l := by
  induction l generalizing acc with
  | nil => simp
  | cons x xs ih =>
    simp only [List.foldl_cons]
    rw [ih]
    simp

lemma foldl_maxStep_some (rows : List Micro.DataValue) (a : Nat) :
    ∃ m, rows.foldl Micro.maxStep (some a) = some m
      ∧ a ≤ m
      ∧ (m = a ∨ ∃ s ∈ rows, s.last_updated = m)
      ∧ ∀ r ∈ rows, r.last_updated ≤ m := by
  induction rows generalizing a with
  | nil => exact ⟨a, rfl, Nat.le_refl _, Or.inl rfl, by simp⟩
  | cons r rs ih =>
    obtain ⟨m, hm, hle, hor, hall⟩ := ih (max a r.last_updated)
    refine ⟨m, ?_, ?_, ?_, ?_⟩
    · simpa [Micro.maxStep] using hm
    · omega
    · rcases hor with hma | ⟨s, hs, hsm⟩
      · rcases Nat.le_total r.last_updated a with hra | hra
        · left; omega
        · right
          exact ⟨r, List.mem_cons_self _ _, by omega⟩
      · exact Or.inr ⟨s, List.mem_cons_of_mem _ hs, hsm⟩
    · intro x hx
      rcases List.mem_cons.mp hx with rfl | hx
      · omega
      · exact hall x hx

end Helpers

/-- C10: `filter_data_elements` appends every input id whether or not it is
present in the instance metadata, so it is the identity on the data-element
list. -/
theorem filter_data_elements_identity (meta_ids data_elements : List String) :
    Micro.filter_data_elements meta_ids data_elements = data_elements := by
  unfold Micro.filter_data_elements
  simpa using filter_data_elements_foldl meta_ids data_elements []

/-- C1 (code bug): with a persisted set holding one record of key A and a
newly fetched set holding one record of a different key B, the merge of old
and new contains the old record, but the record set actually persisted by
the run (`write ∘ enrich ∘ extract`) is just the sorted new set, so the old
record is lost: `extract` computes the merged frame `df` and then returns
`new` instead (pipeline.py line 244). -/
theorem extract_write_drops_unmatched_old_record :
    (⟨"dx1", "202001", "ou1", "coc", "aoc", 1, 5⟩ : Micro.DataValue) ∈
        Micro.merge_data_values [⟨"dx1", "202001", "ou1", "coc", "aoc", 1, 5⟩]
          [⟨"dx2", "202002", "ou2", "coc", "aoc", 2, 7⟩]
    ∧ Micro.persistedAfterRun [⟨"dx1", "202001", "ou1", "coc", "aoc", 1, 5⟩]
        [⟨"dx2", "202002", "ou2", "coc", "aoc", 2, 7⟩] [] []
        = [⟨"dx2", "202002", "ou2", "coc", "aoc", 2, 7⟩]
    ∧ (⟨"dx1", "202001", "ou1", "coc", "aoc", 1, 5⟩ : Micro.DataValue) ∉
        Micro.persistedAfterRun [⟨"dx1", "202001", "ou1", "coc", "aoc", 1, 5⟩]
          [⟨"dx2", "202002", "ou2", "coc", "aoc", 2, 7⟩] [] [] := by
  have hmerge :
      Micro.merge_data_values [⟨"dx1", "202001", "ou1", "coc", "aoc", 1, 5⟩]
        [⟨"dx2", "202002", "ou2", "coc", "aoc", 2, 7⟩]
        = [⟨"dx2", "202002", "ou2", "coc", "aoc", 2, 7⟩,
           ⟨"dx1", "202001", "ou1", "coc", "aoc", 1, 5⟩] := by
    simp [Micro.merge_data_values, Micro.sortDesc, List.insertionSort, List.orderedInsert,
      Micro.luDescRel, Micro.dedupFirst, Micro.DataValue.key]
  refine ⟨?_, by rfl, by decide⟩
  rw [hmerge]
  decide

/-- C6 (counterexample): when the high-water mark is exactly 180 days old the
code chunks (`days_since_last_update >= 180`), while the claim predicts a
single full-range call ("more than 180 days"). -/
theorem uses_monthly_chunks_at_exactly_180 :
    Micro.uses_monthly_chunks 180 (some 0) = true
    ∧ ¬ Micro.chunkCondClaimed 180 (some 0) := by
  constructor
  · decide
  · rintro (h | ⟨lu, hlu, hgt⟩)
    · exact Option.noConfusion h
    · cases hlu
      omega

/-- C6 (amended): the extractor chunks exactly when no prior data exists or
the high-water mark is 180 days old **or more**; and the high-water mark is
the maximum `last_updated` value of the persisted set (absent when no file
exists). -/
theorem chunking_decision_amended :
    (∀ (now : Int) (lu : Option Int),
        Micro.uses_monthly_chunks now lu = true ↔
          (lu = none ∨ ∃ d, lu = some d ∧ now - d ≥ 180))
    ∧ Micro.get_last_updated none = none
    ∧ (∀ (rows : List Micro.DataValue) (r : Micro.DataValue), r ∈ rows →
        ∃ m, Micro.get_last_updated (some rows) = some m
          ∧ r.last_updated ≤ m ∧ ∃ s ∈ rows, s.last_updated = m) := by
  refine ⟨?_, rfl, ?_⟩
  · intro now lu
    cases lu with
    | none => simp [Micro.uses_monthly_chunks]
    | some d =>
      simp [Micro.uses_monthly_chunks, Micro.days_since_last_update]
  · intro rows r hr
    cases rows with
    | nil => cases hr
    | cons r0 rs =>
      obtain ⟨m, hm, hle, hor, hall⟩ := foldl_maxStep_some rs r0.last_updated
      refine ⟨m, ?_, ?_, ?_⟩
      · simpa [Micro.get_last_updated, Micro.maxStep] using hm
      · rcases List.mem_cons.mp hr with rfl | hr'
        · exact hle
        · exact hall r hr'
      · rcases hor with rfl | ⟨s, hs, hsm⟩
        · exact ⟨r0, List.mem_cons_self _ _, rfl⟩
        · exact ⟨s, List.mem_cons_of_mem _ hs, hsm⟩

/-- C6 (amended, witness): concrete check at a 180-day-old high-water mark
and a two-row persisted set. -/
theorem chunking_decision_amended_witness :
    Micro.uses_monthly_chunks 180 (some 0) = true
    ∧ (⟨"a", "p", "o", "c", "c", 7, 0⟩ : Micro.DataValue) ∈
        [(⟨"a", "p", "o", "c", "c", 7, 0⟩ : Micro.DataValue),
         ⟨"b", "p", "o", "c", "c", 3, 0⟩]
    ∧ ∃ m, Micro.get_last_updated
          (some [(⟨"a", "p", "o", "c", "c", 7, 0⟩ : Micro.DataValue),
                 ⟨"b", "p", "o", "c", "c", 3, 0⟩]) = some m
        ∧ (⟨"a", "p", "o", "c", "c", 7, 0⟩ : Micro.DataValue).last_updated ≤ m
        ∧ ∃ s ∈ [(⟨"a", "p", "o", "c", "c", 7, 0⟩ : Micro.DataValue),
                 ⟨"b", "p", "o", "c", "c", 3, 0⟩], s.last_updated = m := by
  refine ⟨?_, by decide, ?_⟩
  · exact (chunking_decision_amended.1 180 (some 0)).mpr
      (Or.inr ⟨0, rfl, by omega⟩)
  · exact chunking_decision_amended.2.2 _ _ (by decide)

section PushLoopLemmas

lemma push_append (transform : PushTloh.SrcFile → Except String α)
    (postValues : α → Except String Climate.ImportCount)
    (l1 l2 : List PushTloh.SrcFile) :
    PushTloh.push transform postValues (l1 ++ l2)
      = PushTloh.push transform postValues l1 ++ PushTloh.push transform postValues l2 := by
  induction l1 with
  | nil => simp [PushTloh.push]
  | cons f fs ih =>
    simp only [List.cons_append, PushTloh.push, List.append_eq, ih, List.append_assoc]

lemma push_length (transform : PushTloh.SrcFile → Except String α)
    (postValues : α → Except String Climate.ImportCount)
    (files : List PushTloh.SrcFile) :
    (PushTloh.push transform postValues files).length = files.length := by
  induction files with
  | nil => rfl
  | cons f fs ih =>
    simp only [PushTloh.push, List.length_append, ih, List.length_cons]
    cases PushTloh.processFile transform postValues f <;> simp [Nat.add_comm]

end PushLoopLemmas

/-- C9: the per-file loop of the `push` task of push_tloh and
push_tloh_completeness processes every file: the log of a run over
`pre ++ src :: rest` is the log over `pre`, then one entry for `src` (a
warning holding the caught exception when processing `src` fails, the import
report otherwise), then the log over `rest` — the loop always reaches the
files after a failing one, produces one entry per file, and returns a log
rather than propagating any per-file exception. -/
theorem push_isolates_file_failures (α : Type)
    (transform : PushTloh.SrcFile → Except String α)
    (postValues : α → Except String Climate.ImportCount)
    (pre : List PushTloh.SrcFile) (src : PushTloh.SrcFile)
    (rest : List PushTloh.SrcFile) :
    PushTloh.push transform postValues (pre ++ src :: rest)
      = PushTloh.push transform postValues pre
        ++ (match PushTloh.processFile transform postValues src with
            | .ok r => [PushTloh.LogEntry.report src.period r]
            | .error e => [PushTloh.LogEntry.failure src.period e])
        ++ PushTloh.push transform postValues rest
    ∧ (PushTloh.push transform postValues (pre ++ src :: rest)).length
        = pre.length + 1 + rest.length
    ∧ (∀ e, PushTloh.processFile transform postValues src = .error e →
        PushTloh.LogEntry.failure src.period e ∈
          PushTloh.push transform postValues (pre ++ src :: rest)) := by
  refine ⟨?_, ?_, ?_⟩
  · rw [push_append]
    simp only [PushTloh.push, List.append_assoc]
  · rw [push_length]
    simp
    omega
  · intro e he
    rw [push_append]
    refine List.mem_append_right _ ?_
    simp only [PushTloh.push, he]
    exact List.mem_append_left _ (by simp)

/-- C9 (witness): a concrete three-file run in which the middle file fails;
the log holds one entry per file and the failure is logged with its error. -/
theorem push_isolates_file_failures_witness :
    PushTloh.push (α := Nat)
        (fun f => if f.fpath = "bad.xlsx" then .error "boom" else .ok 1)
        (fun _ => .ok ⟨1, 0, 0, 0⟩)
        [⟨"2024W1", "a.xlsx"⟩, ⟨"2024W2", "bad.xlsx"⟩, ⟨"2024W3", "c.xlsx"⟩]
      = PushTloh.push (α := Nat)
          (fun f => if f.fpath = "bad.xlsx" then .error "boom" else .ok 1)
          (fun _ => .ok ⟨1, 0, 0, 0⟩) [⟨"2024W1", "a.xlsx"⟩]
        ++ [PushTloh.LogEntry.failure "2024W2" "boom"]
        ++ PushTloh.push (α := Nat)
            (fun f => if f.fpath = "bad.xlsx" then .error "boom" else .ok 1)
            (fun _ => .ok ⟨1, 0, 0, 0⟩) [⟨"2024W3", "c.xlsx"⟩] := by
  have h := (push_isolates_file_failures Nat
    (fun f => if f.fpath = "bad.xlsx" then .error "boom" else .ok 1)
    (fun _ => .ok ⟨1, 0, 0, 0⟩)
    [⟨"2024W1", "a.xlsx"⟩] ⟨"2024W2", "bad.xlsx"⟩ [⟨"2024W3", "c.xlsx"⟩]).1
  simpa [PushTloh.processFile] using h

section PusherLemmas

lemma pushRun_all_success (resp : Climate.Entry α → Climate.ImportSummary)
    (entries : List (Climate.Entry α))
    (h : ∀ x ∈ entries, (resp x).status = "SUCCESS") :
    Climate.pushRun resp entries
      = (entries, .ok (entries.map (fun x => (resp x).importCount))) := by
  induction entries with
  | nil => rfl
  | cons e es ih =>
    have he := h e (List.mem_cons_self _ _)
    simp [Climate.pushRun, he, ih (fun x hx => h x (List.mem_cons_of_mem _ hx))]

lemma pushRun_first_failure (resp : Climate.Entry α → Climate.ImportSummary)
    (pre : List (Climate.Entry α)) (e : Climate.Entry α)
    (rest : List (Climate.Entry α))
    (hpre : ∀ x ∈ pre, (resp x).status = "SUCCESS")
    (he : (resp e).status ≠ "SUCCESS") :
    Climate.pushRun resp (pre ++ e :: rest) = (pre ++ [e], .error (resp e).description) := by
  induction pre with
  | nil => simp [Climate.pushRun, he]
  | cons p ps ih =>
    have hp := hpre p (List.mem_cons_self _ _)
    simp [Climate.pushRun, hp, ih (fun x hx => hpre x (List.mem_cons_of_mem _ hx))]

lemma merge_import_counts_foldl (cs : List Climate.ImportCount)
    (acc : Climate.ImportCount) :
    cs.foldl (fun acc c =>
        (⟨acc.imported + c.imported, acc.updated + c.updated,
          acc.ignored + c.ignored, acc.deleted + c.deleted⟩ : Climate.ImportCount)) acc
      = ⟨acc.imported + (cs.map Climate.ImportCount.imported).sum,
         acc.updated + (cs.map Climate.ImportCount.updated).sum,
         acc.ignored + (cs.map Climate.ImportCount.ignored).sum,
         acc.deleted + (cs.map Climate.ImportCount.deleted).sum⟩ := by
  induction cs generalizing acc with
  | nil => cases acc; simp
  | cons c cs ih =>
    simp only [List.foldl_cons, ih, List.map_cons, List.sum_cons,
      Climate.ImportCount.mk.injEq]
    refine ⟨?_, ?_, ?_, ?_⟩ <;> omega

lemma merge_import_counts_fields (cs : List Climate.ImportCount) :
    Climate.merge_import_counts cs
      = ⟨(cs.map Climate.ImportCount.imported).sum,
         (cs.map Climate.ImportCount.updated).sum,
         (cs.map Climate.ImportCount.ignored).sum,
         (cs.map Climate.ImportCount.deleted).sum⟩ := by
  unfold Climate.merge_import_counts
  simpa using merge_import_counts_foldl cs ⟨0, 0, 0, 0⟩

lemma chunkify_nil (n : Nat) : EndosRedop.chunkify ([] : List α) n = [] := by
  cases n <;> simp [EndosRedop.chunkify]

lemma chunkify_of_ne_nil (l : List α) (n : Nat) (hl : l ≠ []) (hn : n ≠ 0) :
    EndosRedop.chunkify l n = l.take n :: EndosRedop.chunkify (l.drop n) n := by
  obtain ⟨x, xs, rfl⟩ := List.exists_cons_of_ne_nil hl
  obtain ⟨m, rfl⟩ := Nat.exists_eq_succ_of_ne_zero hn
  rw [EndosRedop.chunkify]

lemma chunkify_flatten (l : List α) (n : Nat) (hn : n ≠ 0) :
    (EndosRedop.chunkify l n).flatten = l := by
  induction l, n using EndosRedop.chunkify.induct with
  | case1 l => exact absurd rfl hn
  | case2 n => simp [EndosRedop.chunkify]
  | case3 x xs n ih =>
    rw [EndosRedop.chunkify]
    simp only [List.flatten_cons]
    rw [ih (by omega)]
    exact List.take_append_drop _ _

lemma chunkify_batch_sizes (l : List α) (n : Nat) (hn : n ≠ 0) :
    ∀ b ∈ EndosRedop.chunkify l n, b ≠ [] ∧ b.length ≤ n := by
  induction l, n using EndosRedop.chunkify.induct with
  | case1 l => exact absurd rfl hn
  | case2 n => simp [EndosRedop.chunkify]
  | case3 x xs n ih =>
    rw [EndosRedop.chunkify]
    intro b hb
    rcases List.mem_cons.mp hb with rfl | hb
    · constructor
      · simp
      · simpa using Nat.min_le_left _ _
    · exact ih (by omega) b hb

lemma chunkify_ne_nil_of_arg_ne_nil (l : List α) (n : Nat) (hl : l ≠ []) (hn : n ≠ 0) :
    EndosRedop.chunkify l n ≠ [] := by
  rw [chunkify_of_ne_nil l n hl hn]
  simp

lemma chunkify_dropLast_sizes (l : List α) (n : Nat) (hn : n ≠ 0) :
    ∀ b ∈ (EndosRedop.chunkify l n).dropLast, b.length = n := by
  induction l, n using EndosRedop.chunkify.induct with
  | case1 l => exact absurd rfl hn
  | case2 n => simp [EndosRedop.chunkify]
  | case3 x xs n ih =>
    rw [EndosRedop.chunkify]
    by_cases hrest : EndosRedop.chunkify ((x :: xs).drop (n + 1)) (n + 1) = []
    · rw [hrest]
      simp
    · rw [List.dropLast_cons_of_ne_nil hrest]
      intro b hb
      rcases List.mem_cons.mp hb with rfl | hb
      · have hdrop : (x :: xs).drop (n + 1) ≠ [] := by
          intro hdn
          exact hrest (by rw [hdn]; exact chunkify_nil _)
        have hlen : n + 1 < (x :: xs).length := by
          by_contra hcon
          exact hdrop (List.drop_eq_nil_of_le (by omega))
        simp only [List.length_take, List.length_cons] at hlen ⊢
        omega
      · exact ih (by omega) b hb

end PusherLemmas

/-- C4: during a push, the first non-success summary makes `push_data_values`
fail with the destination's description string; the failing batch is the last
one sent (no later batch is issued), the batches before it were all sent and
are not revisited, and when every summary is a success all batches are sent
and the summed counts are returned. -/
theorem push_data_values_failfast :
    (∀ (α : Type) (resp : Climate.Entry α → Climate.ImportSummary)
        (pre : List (Climate.Entry α)) (e : Climate.Entry α)
        (rest : List (Climate.Entry α)),
      (∀ x ∈ pre, (resp x).status = "SUCCESS") →
      (resp e).status ≠ "SUCCESS" →
      Climate.push_data_values resp (pre ++ e :: rest)
        = (pre ++ [e], .error (resp e).description))
    ∧ (∀ (α : Type) (resp : Climate.Entry α → Climate.ImportSummary)
        (entries : List (Climate.Entry α)),
      (∀ x ∈ entries, (resp x).status = "SUCCESS") →
      Climate.push_data_values resp entries
        = (entries, .ok (Climate.merge_import_counts
            (entries.map (fun x => (resp x).importCount))))) := by
  constructor
  · intro α resp pre e rest hpre he
    unfold Climate.push_data_values
    rw [pushRun_first_failure resp pre e rest hpre he]
  · intro α resp entries h
    unfold Climate.push_data_values
    rw [pushRun_all_success resp entries h]

/-- C4 (witness): three batches, the second fails; the error carries the
description, batch 3 is never sent, batches 1 and 2 are the calls issued. -/
theorem push_data_values_failfast_witness :
    Climate.push_data_values (α := Nat)
        (fun p => if p.1 = "bad" then ⟨"ERROR", "boom", ⟨0, 0, 0, 0⟩⟩
                  else ⟨"SUCCESS", "ok", ⟨1, 0, 0, 0⟩⟩)
        [("ou1", [1]), ("bad", [2]), ("ou3", [3])]
      = ([("ou1", [1]), ("bad", [2])], .error "boom") := by
  have h := push_data_values_failfast.1 Nat
    (fun p => if p.1 = "bad" then ⟨"ERROR", "boom", ⟨0, 0, 0, 0⟩⟩
              else ⟨"SUCCESS", "ok", ⟨1, 0, 0, 0⟩⟩)
    [("ou1", [1])] ("bad", [2]) [("ou3", [3])]
    (by decide) (by decide)
  simpa using h

/-- C3 (counterexample): the only pusher that returns summed import counts
(`push_data_values` of push_climate_data_auto) batches per org-unit group,
not per 1000 records: submitting 2500 records under one org unit issues a
single destination call carrying all 2500 records, where the claim predicts
3 calls of 1000/1000/500. -/
theorem pusher_single_call_for_2500_records :
    ((Climate.push_data_values (α := Nat)
        (fun _ => ⟨"SUCCESS", "", ⟨1, 0, 0, 0⟩⟩)
        [("ou1", List.replicate 2500 0)]).1.map (fun e => e.2.length)) = [2500]
    ∧ ([2500] : List Nat) ≠ [1000, 1000, 500] := by
  constructor
  · have h := pushRun_all_success (α := Nat)
      (fun _ => ⟨"SUCCESS", "", ⟨1, 0, 0, 0⟩⟩)
      [("ou1", List.replicate 2500 0)] (fun x _ => rfl)
    unfold Climate.push_data_values
    rw [h]
    show [(List.replicate 2500 (0 : Nat)).length] = [2500]
    rw [List.length_replicate]
  · decide

lemma chunkify_replicate (a : α) (m n : Nat) (hm : m ≠ 0) (hn : n ≠ 0) :
    EndosRedop.chunkify (List.replicate m a) n
      = List.replicate (min n m) a :: EndosRedop.chunkify (List.replicate (m - n) a) n := by
  rw [chunkify_of_ne_nil _ _ (by rw [Ne, List.replicate_eq_nil_iff]; exact hm) hn,
    List.take_replicate, List.drop_replicate]

/-- C3 (amended): batching by 1000 and count summing live in different
pushers.  (a) The endos_redop_completeness pusher `post` issues one
destination call per consecutive 1000-record slice of the payload, in input
order (their concatenation is the payload, every batch is non-empty with at
most 1000 records, and every batch but the last has exactly 1000); for 2500
records the batch sizes are 1000, 1000, 500; `post` discards the responses
and returns no counts.  (b) The push_climate_data_auto pusher
`push_data_values` issues one call per org-unit entry (in input order) and,
when every call succeeds, returns the field-wise sum of the per-batch import
counts. -/
theorem pusher_batching_amended :
    (∀ payload : List EndosRedop.PayloadValue,
        (EndosRedop.post payload).flatten = payload
        ∧ (∀ b ∈ EndosRedop.post payload, b ≠ [] ∧ b.length ≤ 1000)
        ∧ (∀ b ∈ (EndosRedop.post payload).dropLast, b.length = 1000))
    ∧ ((EndosRedop.post
          (List.replicate 2500 (⟨"dx", "pe", "ou", 0⟩ : EndosRedop.PayloadValue))).map
            List.length = [1000, 1000, 500])
    ∧ (∀ (α : Type) (resp : Climate.Entry α → Climate.ImportSummary)
          (entries : List (Climate.Entry α)),
        (∀ x ∈ entries, (resp x).status = "SUCCESS") →
        (Climate.push_data_values resp entries).1 = entries
        ∧ (Climate.push_data_values resp entries).2
            = .ok ⟨(((entries.map (fun x => (resp x).importCount)).map
                      Climate.ImportCount.imported).sum),
                   (((entries.map (fun x => (resp x).importCount)).map
                      Climate.ImportCount.updated).sum),
                   (((entries.map (fun x => (resp x).importCount)).map
                      Climate.ImportCount.ignored).sum),
                   (((entries.map (fun x => (resp x).importCount)).map
                      Climate.ImportCount.deleted).sum)⟩) := by
  refine ⟨?_, ?_, ?_⟩
  · intro payload
    exact ⟨chunkify_flatten payload 1000 (by decide),
      chunkify_batch_sizes payload 1000 (by decide),
      chunkify_dropLast_sizes payload 1000 (by decide)⟩
  · unfold EndosRedop.post
    rw [chunkify_replicate _ _ _ (by decide) (by decide),
      show min 1000 2500 = 1000 by norm_num, show 2500 - 1000 = 1500 by norm_num,
      chunkify_replicate _ _ _ (by decide) (by decide),
      show min 1000 1500 = 1000 by norm_num, show 1500 - 1000 = 500 by norm_num,
      chunkify_replicate _ _ _ (by decide) (by decide),
      show min 1000 500 = 500 by norm_num, show 500 - 1000 = 0 by norm_num,
      List.replicate_zero, chunkify_nil, List.map_cons, List.map_cons, List.map_cons,
      List.map_nil, List.length_replicate, List.length_replicate]
  · intro α resp entries h
    refine ⟨?_, ?_⟩
    · unfold Climate.push_data_values
      rw [pushRun_all_success resp entries h]
    · unfold Climate.push_data_values
      rw [pushRun_all_success resp entries h]
      show Except.ok (Climate.merge_import_counts
        (entries.map (fun x => (resp x).importCount))) = _
      rw [merge_import_counts_fields]

/-- C3 (amended, witness): the 1000/1000/500 scenario for the 1000-batching
pusher, and a concrete two-entry success run for the count-summing pusher. -/
theorem pusher_batching_amended_witness :
    ((EndosRedop.post
        (List.replicate 2500 (⟨"dx", "pe", "ou", 0⟩ : EndosRedop.PayloadValue))).map
          List.length = [1000, 1000, 500])
    ∧ (Climate.push_data_values (α := Nat)
          (fun p => if p.1 = "ou1" then ⟨"SUCCESS", "", ⟨1, 2, 3, 4⟩⟩
                    else ⟨"SUCCESS", "", ⟨10, 20, 30, 40⟩⟩)
          [("ou1", [1]), ("ou2", [2])]).2
        = .ok ⟨11, 22, 33, 44⟩ := by
  constructor
  · exact pusher_batching_amended.2.1
  · have h := (pusher_batching_amended.2.2 Nat
      (fun p => if p.1 = "ou1" then ⟨"SUCCESS", "", ⟨1, 2, 3, 4⟩⟩
                else ⟨"SUCCESS", "", ⟨10, 20, 30, 40⟩⟩)
      [("ou1", [1]), ("ou2", [2])] (by decide)).2
    simpa using h

section PayloadLemmas

lemma mem_in_redop (redop : List EndosRedop.RedopRow) (pv : EndosRedop.PayloadValue) :
    pv ∈ EndosRedop.in_redop redop ↔
      ∃ r ∈ redop, r.dataElement = pv.dataElement ∧ r.period = pv.period
        ∧ r.orgUnit = pv.orgUnit ∧ r.value = some pv.value := by
  unfold EndosRedop.in_redop
  rw [List.mem_filterMap]
  constructor
  · rintro ⟨r, hr, hmap⟩
    cases hv : r.value with
    | none => rw [hv] at hmap; cases hmap
    | some v =>
      rw [hv] at hmap
      simp only [Option.map_some'] at hmap
      cases hmap
      exact ⟨r, hr, rfl, rfl, rfl, hv⟩
  · rintro ⟨r, hr, hde, hpe, hou, hval⟩
    refine ⟨r, hr, ?_⟩
    rw [hval]
    simp only [Option.map_some']
    cases pv
    simp only at hde hpe hou
    rw [hde, hpe, hou]

end PayloadLemmas

/-- C5: `build_payload` never emits a record whose key and value already
occur among the destination's non-null records, and it always emits a
non-null source metric whose key has no non-null destination record (a null
destination value counts as not present). -/
theorem build_payload_diff :
    (∀ (endos : List EndosRedop.EndosRow) (redop : List EndosRedop.RedopRow)
        (dv : EndosRedop.PayloadValue),
      dv ∈ EndosRedop.build_payload endos redop →
      ¬ ∃ r ∈ redop, r.dataElement = dv.dataElement ∧ r.period = dv.period
          ∧ r.orgUnit = dv.orgUnit ∧ r.value = some dv.value)
    ∧ (∀ (endos : List EndosRedop.EndosRow) (redop : List EndosRedop.RedopRow)
        (row : EndosRedop.EndosRow) (p : String × String) (v : Int),
      row ∈ endos → p ∈ EndosRedop.DATA_ELEMENTS →
      EndosRedop.metricValue row p.1 = some v →
      (∀ r ∈ redop, r.dataElement = p.2 → r.period = row.period →
        r.orgUnit = row.ou_id → r.value = none) →
      (⟨p.2, row.period, row.ou_id, v⟩ : EndosRedop.PayloadValue)
        ∈ EndosRedop.build_payload endos redop) := by
  constructor
  · intro endos redop dv hdv hex
    have hin : dv ∈ EndosRedop.in_redop redop := (mem_in_redop redop dv).mpr hex
    simp only [EndosRedop.build_payload] at hdv
    obtain ⟨row, hrow, hdv⟩ := List.mem_flatMap.mp hdv
    obtain ⟨p, hp, hfp⟩ := List.mem_filterMap.mp hdv
    split at hfp
    · exact Option.noConfusion hfp
    · split at hfp
      · exact Option.noConfusion hfp
      · rename_i hcond
        cases hfp
        exact hcond hin
  · intro endos redop row p v hrow hp hmv hnone
    simp only [EndosRedop.build_payload]
    refine List.mem_flatMap.mpr ⟨row, hrow, ?_⟩
    refine List.mem_filterMap.mpr ⟨p, hp, ?_⟩
    have hnotin : (⟨p.2, row.period, row.ou_id, v⟩ : EndosRedop.PayloadValue)
        ∉ EndosRedop.in_redop redop := by
      intro hin
      obtain ⟨r, hr, hde, hpe, hou, hval⟩ := (mem_in_redop redop _).mp hin
      rw [hnone r hr hde hpe hou] at hval
      cases hval
    simp only [hmv]
    rw [if_neg hnotin]

/-- C5 (witness): the specification's scenario — the destination snapshot
holds a null value for the key, the source holds 3, and the payload includes
the record with value 3. -/
theorem build_payload_diff_witness :
    (⟨"Ae9s1MsUEYq", "202401", "ouB", 3⟩ : EndosRedop.PayloadValue)
      ∈ EndosRedop.build_payload
          [⟨"202401", "ouB", some 3, none, none⟩]
          [⟨"Ae9s1MsUEYq", "202401", "ouB", none⟩] := by
  have h := build_payload_diff.2
    [⟨"202401", "ouB", some 3, none, none⟩]
    [⟨"Ae9s1MsUEYq", "202401", "ouB", none⟩]
    ⟨"202401", "ouB", some 3, none, none⟩ ("actual_reports", "Ae9s1MsUEYq") 3
    (by decide) (by decide) (by decide) (by decide)
  exact h

section EnrichLemmas

lemma leftJoin_mem {α β γ : Type} (left : List α) (right : List β)
    (same : α → β → Bool) (comb : α → Option β → γ) (l : α) (hl : l ∈ left) :
    ∃ mo, comb l mo ∈ Micro.leftJoin left right same comb
      ∧ ((∀ m ∈ right, same l m = false) → mo = none) := by
  unfold Micro.leftJoin
  cases hf : right.filter (fun r => same l r) with
  | nil =>
    refine ⟨none, ?_, fun _ => rfl⟩
    refine List.mem_flatMap.mpr ⟨l, hl, ?_⟩
    rw [hf]
    exact List.mem_singleton.mpr rfl
  | cons m ms =>
    refine ⟨some m, ?_, ?_⟩
    · refine List.mem_flatMap.mpr ⟨l, hl, ?_⟩
      rw [hf]
      exact List.mem_map.mpr ⟨m, List.mem_cons_self _ _, rfl⟩
    · intro hnone
      exfalso
      have hm : m ∈ right.filter (fun r => same l r) := by
        rw [hf]
        exact List.mem_cons_self _ _
      have h1 := List.mem_filter.mp hm
      have h2 := hnone m h1.1
      exact Bool.noConfusion (h1.2.symm.trans h2)

end EnrichLemmas

/-- C8: `enrich` never drops an input row: every data-value row reappears in
the joined output, and when its org-unit id (resp. data-element id) matches
no metadata row, the attached name column is null. -/
theorem enrich_preserves_rows (data : List Micro.DataValue)
    (ous : List Micro.OrgUnitMeta) (des : List Micro.DataElementMeta) :
    ∀ r ∈ data, ∃ e ∈ Micro.enrich data ous des,
      e.base = r
      ∧ ((∀ m ∈ ous, m.id ≠ r.organisation_unit_id) → e.organisation_unit_name = none)
      ∧ ((∀ m ∈ des, m.id ≠ r.data_element_id) → e.data_element_name = none) := by
  intro r hr
  obtain ⟨mo, hmem1, hnone1⟩ := leftJoin_mem data ous
    (fun r m => r.organisation_unit_id == m.id) (fun r m => (r, m)) r hr
  obtain ⟨mo2, hmem2, hnone2⟩ := leftJoin_mem _ des
    (fun p m => p.1.data_element_id == m.id)
    (fun p m =>
      (⟨p.1, p.2.map Micro.OrgUnitMeta.organisation_unit_name,
        m.map Micro.DataElementMeta.data_element_name⟩ : Micro.EnrichedValue))
    (r, mo) hmem1
  refine ⟨_, hmem2, rfl, ?_, ?_⟩
  · intro hno
    have hmo : mo = none := by
      refine hnone1 (fun m hm => ?_)
      rw [beq_eq_false_iff_ne]
      exact fun h => hno m hm h.symm
    show mo.map Micro.OrgUnitMeta.organisation_unit_name = none
    rw [hmo]
    rfl
  · intro hno
    have hmo2 : mo2 = none := by
      refine hnone2 (fun m hm => ?_)
      rw [beq_eq_false_iff_ne]
      exact fun h => hno m hm h.symm
    show mo2.map Micro.DataElementMeta.data_element_name = none
    rw [hmo2]
    rfl

/-- C8 (witness): a single row with no metadata match is preserved with null
name columns. -/
theorem enrich_preserves_rows_witness :
    ∃ e ∈ Micro.enrich [⟨"dx9", "202001", "ou9", "coc", "aoc", 4, 2⟩] [] [],
      e.base = (⟨"dx9", "202001", "ou9", "coc", "aoc", 4, 2⟩ : Micro.DataValue)
      ∧ ((∀ m ∈ ([] : List Micro.OrgUnitMeta), m.id ≠ "ou9") →
          e.organisation_unit_name = none)
      ∧ ((∀ m ∈ ([] : List Micro.DataElementMeta), m.id ≠ "dx9") →
          e.data_element_name = none) := by
  have h := enrich_preserves_rows [⟨"dx9", "202001", "ou9", "coc", "aoc", 4, 2⟩] [] []
    ⟨"dx9", "202001", "ou9", "coc", "aoc", 4, 2⟩ (by decide)
  exact h

section MergeLemmas

lemma dedupFirst_subset (l : List Micro.DataValue) : Micro.dedupFirst l ⊆ l := by
  induction l using Micro.dedupFirst.induct with
  | case1 => simp [Micro.dedupFirst]
  | case2 x xs ih =>
    rw [Micro.dedupFirst]
    intro y hy
    rcases List.mem_cons.mp hy with rfl | hy
    · exact List.mem_cons_self _ _
    · exact List.mem_cons_of_mem _ (List.mem_filter.mp (ih hy)).1

lemma dedupFirst_filter (l : List Micro.DataValue)
    (k : String × String × String × String × String) :
    (Micro.dedupFirst l).filter (fun y => decide (y.key = k))
      = ((l.filter (fun y => decide (y.key = k))).head?).toList := by
  induction l using Micro.dedupFirst.induct with
  | case1 => simp [Micro.dedupFirst]
  | case2 x xs ih =>
    rw [Micro.dedupFirst]
    by_cases hk : x.key = k
    · rw [List.filter_cons_of_pos (by simp [hk]), List.filter_cons_of_pos (by simp [hk])]
      have htail : (Micro.dedupFirst (xs.filter (fun y => decide (y.key ≠ x.key)))).filter
          (fun y => decide (y.key = k)) = [] := by
        rw [List.filter_eq_nil_iff]
        intro a ha
        have hmem := dedupFirst_subset _ ha
        have hne := (List.mem_filter.mp hmem).2
        simp only [decide_eq_true_eq] at hne ⊢
        rw [hk] at hne
        exact hne
      rw [htail]
      rfl
    · rw [List.filter_cons_of_neg (by simp [hk]), List.filter_cons_of_neg (by simp [hk])]
      rw [ih]
      have hff : (xs.filter (fun y => decide (y.key ≠ x.key))).filter
          (fun y => decide (y.key = k)) = xs.filter (fun y => decide (y.key = k)) := by
        rw [List.filter_filter]
        apply List.filter_congr
        intro a _
        by_cases hak : a.key = k
        · have hkx : k ≠ x.key := fun h => hk h.symm
          simp [hak, hkx]
        · simp [hak]
      rw [hff]

lemma dedupFirst_pairwise (l : List Micro.DataValue) :
    (Micro.dedupFirst l).Pairwise (fun a b => a.key ≠ b.key) := by
  induction l using Micro.dedupFirst.induct with
  | case1 => simp [Micro.dedupFirst]
  | case2 x xs ih =>
    rw [Micro.dedupFirst]
    refine List.Pairwise.cons ?_ ih
    intro y hy
    have hmem := dedupFirst_subset _ hy
    have h2 := (List.mem_filter.mp hmem).2
    simp only [decide_eq_true_eq] at h2
    exact fun h => h2 h.symm

end MergeLemmas

/-- C2: `merge_data_values old new` keeps exactly one record per distinct
natural key of `old ++ new`; the kept record is a candidate whose
`last_updated` is maximal among same-key candidates, namely the first record
of its key in the stable descending sort of `old` followed by `new` (so on a
`last_updated` tie the record appearing first after the stable sort wins). -/
theorem merge_data_values_spec (old new : List Micro.DataValue) :
    Micro.MergeProp old new := by
  have hperm : List.Perm (Micro.sortDesc (old ++ new)) (old ++ new) :=
    List.perm_insertionSort _ _
  have hsorted : List.Sorted Micro.luDescRel (Micro.sortDesc (old ++ new)) :=
    List.sorted_insertionSort _ _
  refine ⟨dedupFirst_pairwise _, ?_, ?_⟩
  · intro k
    constructor
    · rintro ⟨r, hr, rfl⟩
      exact ⟨r, hperm.mem_iff.mp (dedupFirst_subset _ hr), rfl⟩
    · rintro ⟨r, hr, rfl⟩
      have hrs : r ∈ Micro.sortDesc (old ++ new) := hperm.mem_iff.mpr hr
      have hfil : r ∈ (Micro.sortDesc (old ++ new)).filter
          (fun y => decide (y.key = r.key)) :=
        List.mem_filter.mpr ⟨hrs, by simp⟩
      cases hh : ((Micro.sortDesc (old ++ new)).filter
          (fun y => decide (y.key = r.key))).head? with
      | none =>
        rw [List.head?_eq_none_iff] at hh
        rw [hh] at hfil
        cases hfil
      | some h =>
        have hchar := dedupFirst_filter (Micro.sortDesc (old ++ new)) r.key
        rw [hh] at hchar
        have hmemf : h ∈ (Micro.dedupFirst (Micro.sortDesc (old ++ new))).filter
            (fun y => decide (y.key = r.key)) := by
          rw [hchar]
          exact List.mem_singleton.mpr rfl
        have hmem := (List.mem_filter.mp hmemf).1
        have hkey : h.key = r.key := by
          have := (List.mem_filter.mp hmemf).2
          simpa using this
        exact ⟨h, hmem, hkey⟩
  · intro r hr
    have hsub : r ∈ Micro.sortDesc (old ++ new) := dedupFirst_subset _ hr
    have hmem : r ∈ old ++ new := hperm.mem_iff.mp hsub
    have hchar := dedupFirst_filter (Micro.sortDesc (old ++ new)) r.key
    have hrf : r ∈ (Micro.dedupFirst (Micro.sortDesc (old ++ new))).filter
        (fun y => decide (y.key = r.key)) :=
      List.mem_filter.mpr ⟨hr, by simp⟩
    rw [hchar] at hrf
    cases hh : ((Micro.sortDesc (old ++ new)).filter
        (fun y => decide (y.key = r.key))).head? with
    | none =>
      rw [hh] at hrf
      cases hrf
    | some h =>
      rw [hh] at hrf
      have hrh : r = h := by simpa using hrf
      subst hrh
      refine ⟨hmem, ?_, rfl⟩
      intro s hs hks
      have hsfil : s ∈ (Micro.sortDesc (old ++ new)).filter
          (fun y => decide (y.key = r.key)) :=
        List.mem_filter.mpr ⟨hperm.mem_iff.mpr hs, by simp [hks]⟩
      have hpair : ((Micro.sortDesc (old ++ new)).filter
          (fun y => decide (y.key = r.key))).Pairwise Micro.luDescRel :=
        List.Pairwise.filter _ hsorted
      cases hfl : (Micro.sortDesc (old ++ new)).filter
          (fun y => decide (y.key = r.key)) with
      | nil =>
        rw [hfl] at hsfil
        cases hsfil
      | cons a t =>
        have ha : a = r := by
          rw [hfl] at hh
          simpa using hh
        subst ha
        rw [hfl] at hsfil hpair
        rcases List.mem_cons.mp hsfil with rfl | hst
        · exact Nat.le_refl _
        · exact List.rel_of_pairwise_cons hpair hst

/-- C2 (witness): the specification's scenario — same key, newer
`last_updated` wins. -/
theorem merge_data_values_spec_witness :
    Micro.MergeProp [⟨"dxA", "p1", "ou1", "c1", "c1", 1, 5⟩]
      [⟨"dxA", "p1", "ou1", "c1", "c1", 2, 7⟩] :=
  merge_data_values_spec _ _

section DateLemmas

lemma dle_trans {a b c : Micro.Date} (h1 : Micro.dle a b) (h2 : Micro.dle b c) :
    Micro.dle a c := by
  unfold Micro.dle at *
  omega

lemma dle_of_not_dlt {a b : Micro.Date} (h : ¬ Micro.dlt a b) : Micro.dle b a := by
  unfold Micro.dlt at h
  unfold Micro.dle
  omega

lemma dle_of_not_dle {a b : Micro.Date} (h : ¬ Micro.dle a b) : Micro.dle b a := by
  unfold Micro.dle at *
  omega

lemma daysInMonth_pos (y m : Nat) : 1 ≤ Micro.daysInMonth y m := by
  unfold Micro.daysInMonth
  split
  · split <;> omega
  · split <;> omega

lemma rank_addMonth (d : Micro.Date) : (Micro.addMonth d).rank = d.rank + 1 := by
  unfold Micro.addMonth
  split
  · rename_i h
    simp [Micro.Date.rank]
    omega
  · simp [Micro.Date.rank]
    omega

lemma addMonth_valid {d : Micro.Date} (h : d.Valid) : (Micro.addMonth d).Valid := by
  obtain ⟨h1, h2, h3, h4⟩ := h
  unfold Micro.addMonth
  split
  · have hp := daysInMonth_pos (d.year + 1) 1
    simp only [Micro.Date.Valid]
    refine ⟨by omega, by omega, by omega, by omega⟩
  · have hp := daysInMonth_pos d.year (d.month + 1)
    rename_i hm
    simp only [Micro.Date.Valid]
    refine ⟨by omega, by omega, by omega, by omega⟩

lemma rank_le_of_dlt {a b : Micro.Date} (ha : a.Valid) (hb : b.Valid)
    (h : Micro.dlt a b) : a.rank ≤ b.rank := by
  obtain ⟨ha1, ha2, _, _⟩ := ha
  obtain ⟨hb1, hb2, _, _⟩ := hb
  unfold Micro.dlt at h
  unfold Micro.Date.rank
  omega

lemma monthlyChunksAux_ne_nil (endD : Micro.Date) (fuel : Nat) (cs ce : Micro.Date) :
    Micro.monthlyChunksAux endD fuel cs ce ≠ [] := by
  cases fuel <;> simp [Micro.monthlyChunksAux]

lemma monthlyChunksAux_head (endD : Micro.Date) (fuel : Nat) (cs ce : Micro.Date) :
    (Micro.monthlyChunksAux endD fuel cs ce).head? = some (cs, ce) := by
  cases fuel <;> simp [Micro.monthlyChunksAux]

lemma monthlyChunksAux_chain (endD : Micro.Date) (fuel : Nat) (cs ce : Micro.Date) :
    List.Chain' (fun p q => q.1 = Micro.addMonth p.1 ∧ q.2 = Micro.addMonth p.2)
      (Micro.monthlyChunksAux endD fuel cs ce) := by
  induction fuel generalizing cs ce with
  | zero => simp [Micro.monthlyChunksAux]
  | succ fuel ih =>
    simp only [Micro.monthlyChunksAux]
    split
    · rw [List.chain'_cons']
      constructor
      · intro b hb
        rw [monthlyChunksAux_head] at hb
        simp only [Option.mem_def, Option.some.injEq] at hb
        subst hb
        exact ⟨rfl, rfl⟩
      · exact ih _ _
    · simp

lemma monthlyChunksAux_stop (endD : Micro.Date) (he : endD.Valid) :
    ∀ (fuel : Nat) (cs ce : Micro.Date), ce.Valid →
      endD.rank + 1 ≤ ce.rank + fuel →
      (∀ p ∈ (Micro.monthlyChunksAux endD fuel cs ce).dropLast, Micro.dlt p.2 endD)
      ∧ (∃ c, (Micro.monthlyChunksAux endD fuel cs ce).getLast? = some c
          ∧ Micro.dle endD c.2) := by
  intro fuel
  induction fuel with
  | zero =>
    intro cs ce hv hrank
    constructor
    · simp [Micro.monthlyChunksAux]
    · refine ⟨(cs, ce), by simp [Micro.monthlyChunksAux], ?_⟩
      have hnlt : ¬ Micro.dlt ce endD := by
        intro hlt
        have := rank_le_of_dlt hv he hlt
        omega
      exact dle_of_not_dlt hnlt
  | succ fuel ih =>
    intro cs ce hv hrank
    simp only [Micro.monthlyChunksAux]
    by_cases hlt : Micro.dlt ce endD
    · rw [if_pos hlt]
      obtain ⟨ih1, c, hc, hcend⟩ := ih (Micro.addMonth cs) (Micro.addMonth ce)
        (addMonth_valid hv) (by rw [rank_addMonth]; omega)
      have hne := monthlyChunksAux_ne_nil endD fuel (Micro.addMonth cs) (Micro.addMonth ce)
      constructor
      · rw [List.dropLast_cons_of_ne_nil hne]
        intro p hp
        rcases List.mem_cons.mp hp with rfl | hp
        · exact hlt
        · exact ih1 p hp
      · refine ⟨c, ?_, hcend⟩
        obtain ⟨y, ys, hly⟩ := List.exists_cons_of_ne_nil hne
        rw [hly, List.getLast?_cons_cons]
        rw [hly] at hc
        exact hc
    · rw [if_neg hlt]
      exact ⟨by simp, (cs, ce), by simp, dle_of_not_dlt hlt⟩

lemma monthlyChunksAux_coverage (endD : Micro.Date) (he : endD.Valid) :
    ∀ (fuel : Nat) (cs : Micro.Date), (Micro.addMonth cs).Valid →
      endD.rank + 1 ≤ (Micro.addMonth cs).rank + fuel →
      ∀ d, Micro.dle cs d → Micro.dle d endD →
        ∃ c ∈ Micro.monthlyChunksAux endD fuel cs (Micro.addMonth cs),
          Micro.dle c.1 d ∧ Micro.dle d c.2 := by
  intro fuel
  induction fuel with
  | zero =>
    intro cs hv hrank d hd1 hd2
    refine ⟨(cs, Micro.addMonth cs), by simp [Micro.monthlyChunksAux], hd1, ?_⟩
    have hnlt : ¬ Micro.dlt (Micro.addMonth cs) endD := by
      intro hlt
      have := rank_le_of_dlt hv he hlt
      omega
    exact dle_trans hd2 (dle_of_not_dlt hnlt)
  | succ fuel ih =>
    intro cs hv hrank d hd1 hd2
    simp only [Micro.monthlyChunksAux]
    by_cases hlt : Micro.dlt (Micro.addMonth cs) endD
    · rw [if_pos hlt]
      by_cases hdce : Micro.dle d (Micro.addMonth cs)
      · exact ⟨(cs, Micro.addMonth cs), List.mem_cons_self _ _, hd1, hdce⟩
      · obtain ⟨c, hc, hcd⟩ := ih (Micro.addMonth cs) (addMonth_valid hv)
          (by rw [rank_addMonth]; omega) d (dle_of_not_dle hdce) hd2
        exact ⟨c, List.mem_cons_of_mem _ hc, hcd⟩
    · rw [if_neg hlt]
      refine ⟨(cs, Micro.addMonth cs), List.mem_cons_self _ _, hd1, ?_⟩
      exact dle_trans hd2 (dle_of_not_dlt hlt)

end DateLemmas

/-- C7: for valid dates `start ≤ endD`, `monthly_chunks start endD` starts
with `(start, start + 1 month)`, each later chunk advances both bounds by
exactly one month, every chunk except the last ends strictly before `endD`
while the last ends at or after it, and the chunks jointly cover every date
of `[start, endD]`. -/
theorem monthly_chunks_spec (start endD : Micro.Date)
    (hs : start.Valid) (he : endD.Valid) (hse : Micro.dle start endD) :
    Micro.MonthlyChunksProp start endD := by
  have hv : (Micro.addMonth start).Valid := addMonth_valid hs
  have hrank : endD.rank + 1
      ≤ (Micro.addMonth start).rank + (endD.rank + 1 - start.rank) := by
    rw [rank_addMonth]
    omega
  obtain ⟨hstop1, c, hc, hcend⟩ :=
    monthlyChunksAux_stop endD he (endD.rank + 1 - start.rank) start
      (Micro.addMonth start) hv hrank
  unfold Micro.MonthlyChunksProp Micro.monthly_chunks
  refine ⟨monthlyChunksAux_head _ _ _ _, monthlyChunksAux_chain _ _ _ _,
    hstop1, ⟨c, hc, hcend⟩, ?_⟩
  intro d hd1 hd2
  exact monthlyChunksAux_coverage endD he (endD.rank + 1 - start.rank) start hv hrank
    d hd1 hd2

/-- C7 (witness): the chunks of [2020-01-31, 2020-03-15], with the day
clamped to month length on the first advancement. -/
theorem monthly_chunks_spec_witness :
    (Micro.Date.Valid ⟨2020, 1, 31⟩ ∧ Micro.Date.Valid ⟨2020, 3, 15⟩
      ∧ Micro.dle ⟨2020, 1, 31⟩ ⟨2020, 3, 15⟩)
    ∧ Micro.MonthlyChunksProp ⟨2020, 1, 31⟩ ⟨2020, 3, 15⟩ :=
  ⟨⟨by decide, by decide, by decide⟩,
   monthly_chunks_spec ⟨2020, 1, 31⟩ ⟨2020, 3, 15⟩ (by decide) (by decide) (by decide)⟩
